import Mathlib

/-!
Verification development for an RRT (Rapidly-exploring Random Tree) motion-planning
library written in Rust.  The library's components are shallowly embedded here:

* `Pt F n` mirrors `Point<F, N>` (src/point.rs): an ordered tuple of `N` scalars.
  Idealized scalar arithmetic is modelled by a linear ordered field (`ℚ` for the
  decidable parts, `ℝ` where a square root is taken); the IEEE-754 behaviour that
  matters for degenerate edge cases (NaN produced by `0.0 / 0.0` and its propagation)
  is modelled separately by the type `RF`.
* `euclideanDistanceSquared` / `euclideanDistance` mirror src/distance.rs.
* `steer` mirrors `EuclideanSteering::steer` (src/steering.rs).
* `linearNearestOne` mirrors `LinearNearestNeighbors::nearest_one` (src/neighbors.rs),
  where Rust's `Iterator::min_by` keeps the earlier element on ties.
* `isPointValidF` / `isEdgeValidF` mirror `EuclideanSphericalObstacleSet`
  (src/collision.rs) over the NaN-aware scalars `RF`.
* `fastShortcutting` mirrors `fast_shortcutting` (src/smoothing.rs); the `none`
  result models the out-of-bounds panic of `path[0]` on an empty input.
* `RRT.new`, `RRT.iteration`, `RRT.solve`, `RRT.runIterations`, `RRT.getPath`
  mirror the engine (src/rrt.rs).  The engine's pluggable strategies (validity
  checker, steering function, sampling distribution) are trait objects in Rust and
  are modelled by an `RRTConfig` of functions; the sampler's mutable RNG state is
  modelled by a deterministic sample stream together with a cursor `sampleIdx`.
-/

set_option maxHeartbeats 1600000

/-- A point in N-dimensional space: an ordered tuple of N scalar coordinates
(src/point.rs, `Point<F, N>`). -/
abbrev Pt (F : Type) (n : ℕ) : Type := Fin n → F

section Algebra

variable {F : Type} [LinearOrderedField F] {n : ℕ}

/-- Componentwise vector addition (src/point.rs, `impl Add for Point`). -/
def ptAdd (a b : Pt F n) : Pt F n := fun i => a i + b i

/-- Componentwise vector subtraction (src/point.rs, `impl Sub for Point`). -/
def ptSub (a b : Pt F n) : Pt F n := fun i => a i - b i

/-- Multiplication by a scalar (src/point.rs, `impl Mul<F> for Point`). -/
def ptMul (a : Pt F n) (s : F) : Pt F n := fun i => a i * s

/-- Division by a scalar (src/point.rs, `impl Div<F> for Point`). -/
def ptDiv (a : Pt F n) (s : F) : Pt F n := fun i => a i / s

/-- Dot product (src/point.rs, `Point::dot`). -/
def dot (a b : Pt F n) : F := ∑ i, a i * b i

/-- Squared norm: dot product of the point with itself (src/point.rs,
`Point::norm_squared`). -/
def normSquared (a : Pt F n) : F := dot a a

/-- Squared euclidean distance between two points
(src/distance.rs, `euclidean_distance_squared`). -/
def euclideanDistanceSquared (a b : Pt F n) : F := normSquared (ptSub a b)

lemma normSquared_nonneg (a : Pt F n) : 0 ≤ normSquared a := by
  unfold normSquared dot
  exact Finset.sum_nonneg fun _ _ => mul_self_nonneg _

lemma euclideanDistanceSquared_nonneg (a b : Pt F n) :
    0 ≤ euclideanDistanceSquared a b := normSquared_nonneg _

end Algebra

/-- Euclidean distance: square root of the squared norm of the difference
(src/distance.rs, `euclidean_distance`; src/point.rs, `Point::norm`). -/
noncomputable def euclideanDistance {n : ℕ} (a b : Pt ℝ n) : ℝ :=
  Real.sqrt (normSquared (ptSub a b))

/-- Bounded straight-line steering (src/steering.rs, `EuclideanSteering::steer`):
if the distance from `f` to `t` is at most `range`, return `t`; otherwise move
from `f` a step of length `range` in the direction of `t`. -/
noncomputable def steer {n : ℕ} (range : ℝ) (f t : Pt ℝ n) : Pt ℝ n :=
  if euclideanDistance f t ≤ range then t
  else ptAdd f (ptMul (ptDiv (ptSub t f) (euclideanDistance f t)) range)

/-- Claim C7: for all points `from` and `to`, `steer(from, to)` returns `to`
unchanged when `distance(from, to) ≤ range`, and otherwise returns
`from + (to − from) / distance · range`, a point exactly `range` away from
`from` along the direction toward `to`. -/
theorem steer_bound {n : ℕ} (range : ℝ) (f t : Pt ℝ n) (hr : 0 ≤ range) :
    (euclideanDistance f t ≤ range → steer range f t = t) ∧
    (range < euclideanDistance f t →
      steer range f t = ptAdd f (ptMul (ptDiv (ptSub t f) (euclideanDistance f t)) range) ∧
      euclideanDistance f (steer range f t) = range) := by
  constructor
  · intro h
    unfold steer
    rw [if_pos h]
  · intro h
    have hd0 : 0 < euclideanDistance f t := lt_of_le_of_lt hr h
    have hsteer : steer range f t =
        ptAdd f (ptMul (ptDiv (ptSub t f) (euclideanDistance f t)) range) := by
      unfold steer
      rw [if_neg (not_le.mpr h)]
    refine ⟨hsteer, ?_⟩
    set d := euclideanDistance f t with hdd
    have hSnn : 0 ≤ normSquared (ptSub f t) := normSquared_nonneg _
    have hS : normSquared (ptSub f t) = d ^ 2 := by
      rw [hdd]
      unfold euclideanDistance
      rw [Real.sq_sqrt hSnn]
    have hdiff : ptSub f (ptAdd f (ptMul (ptDiv (ptSub t f) d) range)) =
        fun i => -((t i - f i) / d * range) := by
      funext i
      simp only [ptSub, ptAdd, ptMul, ptDiv]
      ring
    have hdne : d ≠ 0 := ne_of_gt hd0
    rw [hsteer]
    unfold euclideanDistance
    rw [hdiff]
    have hsq : normSquared (fun i => -((t i - f i) / d * range)) = range ^ 2 := by
      unfold normSquared dot
      have hterm : ∀ i : Fin n,
          (-((t i - f i) / d * range)) * (-((t i - f i) / d * range)) =
          (f i - t i) * (f i - t i) * ((range / d) * (range / d)) := by
        intro i
        field_simp
        ring
      rw [Finset.sum_congr rfl fun i _ => hterm i, ← Finset.sum_mul]
      have hsum : (∑ i, (f i - t i) * (f i - t i)) = d ^ 2 := by
        rw [← hS]
        unfold normSquared dot ptSub
        rfl
      rw [hsum]
      field_simp
      ring
    rw [hsq, Real.sqrt_sq hr]

/-- The origin in the plane, used to check Concrete scenario C of the spec. -/
noncomputable def ptOrigin2 : Pt ℝ 2 := ![0, 0]

/-- The point (10, 0), used to check Concrete scenario C of the spec. -/
noncomputable def ptTen2 : Pt ℝ 2 := ![10, 0]

/-- Witness for claim C7: the spec's Concrete scenario C,
`steer((0,0), (10,0), range=5)` evaluates to `(5,0)`. -/
theorem steer_bound_witness :
    0 ≤ (5 : ℝ) ∧ steer 5 ptOrigin2 ptTen2 = ![5, 0] := by
  have hd : euclideanDistance ptOrigin2 ptTen2 = 10 := by
    unfold euclideanDistance normSquared dot ptSub ptOrigin2 ptTen2
    have h100 : (∑ i : Fin 2,
        ((![0, 0] : Pt ℝ 2) i - (![10, 0] : Pt ℝ 2) i) *
          ((![0, 0] : Pt ℝ 2) i - (![10, 0] : Pt ℝ 2) i)) = 100 := by
      rw [Fin.sum_univ_two]
      norm_num
    calc Real.sqrt (∑ i : Fin 2,
          ((![0, 0] : Pt ℝ 2) i - (![10, 0] : Pt ℝ 2) i) *
            ((![0, 0] : Pt ℝ 2) i - (![10, 0] : Pt ℝ 2) i))
        = Real.sqrt 100 := by rw [h100]
      _ = 10 := by
          rw [show (100 : ℝ) = 10 ^ 2 by norm_num]
          exact Real.sqrt_sq (by norm_num)
  have h5 : (5 : ℝ) < euclideanDistance ptOrigin2 ptTen2 := by
    rw [hd]
    norm_num
  have hmain := (steer_bound 5 ptOrigin2 ptTen2 (by norm_num)).2 h5
  refine ⟨by norm_num, ?_⟩
  rw [hmain.1, hd]
  funext i
  fin_cases i <;>
    simp [ptAdd, ptMul, ptDiv, ptSub, ptOrigin2, ptTen2]

/-! ## Path smoothing (src/smoothing.rs) -/

/-- One step of the `for i in 1..path.len()` loop body of `fast_shortcutting`
(src/smoothing.rs lines 22-27): if the edge from the last committed output point
to `path[i]` is invalid, commit `path[i-1]` and advance the last-committed index. -/
def shortcutStep {P : Type} [Inhabited P] (valid : P → P → Bool) (path : List P)
    (st : List P × ℕ) (i : ℕ) : List P × ℕ :=
  if !(valid (st.1.getD st.2 default) (path.getD i default)) then
    let s2 := st.1 ++ [path.getD (i - 1) default]
    (s2, s2.length - 1)
  else st

/-- The `for i in 1..path.len()` loop of `fast_shortcutting`, entered at index `i`. -/
def shortcutLoop {P : Type} [Inhabited P] (valid : P → P → Bool) (path : List P)
    (i : ℕ) (st : List P × ℕ) : List P × ℕ :=
  if h : i < path.length then
    shortcutLoop valid path (i + 1) (shortcutStep valid path st i)
  else st
termination_by path.length - i
decreasing_by omega

/-- `fast_shortcutting` (src/smoothing.rs): seed the output with `path[0]`, run the
scan, then always append the final original point.  The `none` result models the
out-of-bounds panic of `path[0]` when the input is empty. -/
def fastShortcutting {P : Type} [Inhabited P] (valid : P → P → Bool)
    (path : List P) : Option (List P) :=
  match path with
  | [] => none
  | p0 :: _ =>
    let r := shortcutLoop valid path 1 ([p0], 0)
    some (r.1 ++ [path.getD (path.length - 1) default])

/-- Claim C10: `fast_shortcutting` unconditionally indexes `path[0]`, so on an empty
path it fails (the embedding returns `none`, modelling the index-out-of-bounds
panic), and on every non-empty path it returns normally. -/
theorem fast_shortcutting_empty_panics {P : Type} [Inhabited P]
    (valid : P → P → Bool) :
    fastShortcutting valid ([] : List P) = none ∧
    ∀ path : List P, path ≠ [] → (fastShortcutting valid path).isSome = true := by
  refine ⟨rfl, ?_⟩
  intro path hne
  match path with
  | [] => exact absurd rfl hne
  | p0 :: rest => rfl

/-- A validity checker that accepts every edge; a legitimate instantiation of the
`ValidityChecker` trait (an obstacle set with no spheres behaves like this). -/
def alwaysValid {P : Type} : P → P → Bool := fun _ _ => true

/-- The origin of the rational line, used as a concrete input point. -/
def qZero1 : Pt ℚ 1 := fun _ => 0

/-- Witness for claim C10: on the non-empty path `[ (0) ]` the function returns
normally. -/
theorem fast_shortcutting_empty_panics_witness :
    ([qZero1] : List (Pt ℚ 1)) ≠ [] ∧
    (fastShortcutting alwaysValid [qZero1]).isSome = true :=
  ⟨by simp, (fast_shortcutting_empty_panics alwaysValid).2 [qZero1] (by simp)⟩

/-- Every pair of consecutive elements of the list passes the edge-validity check. -/
def chainOk {P : Type} [Inhabited P] (valid : P → P → Bool) (l : List P) : Prop :=
  ∀ j, j + 1 < l.length → valid (l.getD j default) (l.getD (j + 1) default) = true

lemma chainOk_concat {P : Type} [Inhabited P] (valid : P → P → Bool)
    (l : List P) (x : P) (hl : chainOk valid l) (hne : l ≠ [])
    (hlast : valid (l.getD (l.length - 1) default) x = true) :
    chainOk valid (l ++ [x]) := by
  intro j hj
  rw [List.length_append, List.length_singleton] at hj
  have hlpos : 0 < l.length := List.length_pos.mpr hne
  have hj' : j + 1 ≤ l.length := by omega
  rcases Nat.lt_or_ge (j + 1) l.length with hlt | hge
  · rw [List.getD_append _ _ _ _ (by omega), List.getD_append _ _ _ _ hlt]
    exact hl j hlt
  · have hjeq : j + 1 = l.length := by omega
    rw [List.getD_append _ _ _ _ (by omega),
      List.getD_append_right _ _ _ _ (by omega)]
    have h0 : j + 1 - l.length = 0 := by omega
    rw [h0]
    have hjl : j = l.length - 1 := by omega
    rw [hjl]
    simpa using hlast

lemma shortcutLoop_spec {P : Type} [Inhabited P] (valid : P → P → Bool) (path : List P)
    (hvalid : ∀ j, j + 1 < path.length →
      valid (path.getD j default) (path.getD (j + 1) default) = true) :
    ∀ m i st, path.length - i = m → 2 ≤ i → i ≤ path.length →
      st.2 = st.1.length - 1 →
      st.1 ≠ [] →
      st.1.getD 0 default = path.getD 0 default →
      st.1.length ≤ i - 1 →
      chainOk valid st.1 →
      valid (st.1.getD (st.1.length - 1) default) (path.getD (i - 1) default) = true →
      (shortcutLoop valid path i st).1 ≠ [] ∧
      (shortcutLoop valid path i st).1.getD 0 default = path.getD 0 default ∧
      (shortcutLoop valid path i st).1.length ≤ path.length - 1 ∧
      chainOk valid (shortcutLoop valid path i st).1 ∧
      valid ((shortcutLoop valid path i st).1.getD
          ((shortcutLoop valid path i st).1.length - 1) default)
        (path.getD (path.length - 1) default) = true := by
  intro m
  induction m with
  | zero =>
    intro i st hm h2 hle hst2 hne hhead hlen hchain hlink
    have hi : i = path.length := by omega
    rw [shortcutLoop, dif_neg (by omega)]
    subst hi
    exact ⟨hne, hhead, by omega, hchain, hlink⟩
  | succ m ih =>
    intro i st hm h2 hle hst2 hne hhead hlen hchain hlink
    have hi : i < path.length := by omega
    rw [shortcutLoop, dif_pos hi]
    by_cases hv : valid (st.1.getD st.2 default) (path.getD i default) = true
    · have hstep : shortcutStep valid path st i = st := by
        unfold shortcutStep
        rw [hv]
        simp
      rw [hstep]
      apply ih (i + 1) st (by omega) (by omega) (by omega) hst2 hne hhead (by omega) hchain
      have : (i + 1) - 1 = i := by omega
      rw [this, ← hst2]
      exact hv
    · have hv' : valid (st.1.getD st.2 default) (path.getD i default) = false := by
        revert hv
        cases valid (st.1.getD st.2 default) (path.getD i default) <;> simp
      have hstep : shortcutStep valid path st i =
          (st.1 ++ [path.getD (i - 1) default], st.1.length) := by
        unfold shortcutStep
        rw [hv']
        simp [List.length_append]
      rw [hstep]
      apply ih (i + 1) _ (by omega) (by omega) (by omega)
      · simp [List.length_append]
      · simp
      · rw [List.getD_append _ _ _ _ (List.length_pos.mpr hne)]
        exact hhead
      · simp only [List.length_append, List.length_singleton]
        omega
      · apply chainOk_concat valid _ _ hchain hne
        rw [hst2] at hv'
        exact hlink
      · have h1 : (st.1 ++ [path.getD (i - 1) default]).length - 1 = st.1.length := by
          simp [List.length_append]
        rw [h1, List.getD_append_right _ _ _ _ (le_refl _), Nat.sub_self]
        have h2' : (i + 1) - 1 = i := by omega
        rw [h2']
        simp only [List.getD_cons_zero]
        have hiv : (i - 1) + 1 = i := by omega
        have := hvalid (i - 1) (by omega)
        rw [hiv] at this
        exact this

/-- Amended claim C5: for every input path of length at least two in which every
pair of consecutive points passes `is_edge_valid`, `fast_shortcutting` returns a
sequence with the same first and last element as the input, of length at most the
input's length, in which every pair of consecutive elements passes `is_edge_valid`.
(The original claim also covered singleton paths, where the function instead
duplicates the point.) -/
theorem fast_shortcutting_valid_paths {P : Type} [Inhabited P] (valid : P → P → Bool)
    (path : List P) (h2 : 2 ≤ path.length)
    (hvalid : ∀ j, j + 1 < path.length →
      valid (path.getD j default) (path.getD (j + 1) default) = true) :
    ∃ out, fastShortcutting valid path = some out ∧
      out ≠ [] ∧
      out.getD 0 default = path.getD 0 default ∧
      out.getD (out.length - 1) default = path.getD (path.length - 1) default ∧
      out.length ≤ path.length ∧
      chainOk valid out := by
  match path, h2, hvalid with
  | p0 :: rest, h2, hvalid =>
  have hform : fastShortcutting valid (p0 :: rest) =
      some ((shortcutLoop valid (p0 :: rest) 1 ([p0], 0)).1 ++
        [(p0 :: rest).getD ((p0 :: rest).length - 1) default]) := rfl
  have hv01 : valid (([p0] : List P).getD 0 default) ((p0 :: rest).getD 1 default) = true := by
    have h0 := hvalid 0 (by omega)
    simpa using h0
  have hstep1 : shortcutStep valid (p0 :: rest) ([p0], 0) 1 = ([p0], 0) := by
    unfold shortcutStep
    simp only [hv01]
    simp
  have hloop : shortcutLoop valid (p0 :: rest) 1 ([p0], 0) =
      shortcutLoop valid (p0 :: rest) 2 ([p0], 0) := by
    rw [shortcutLoop, dif_pos (by simp only [List.length_cons] at h2 ⊢; omega), hstep1]
  obtain ⟨hne, hhead, hlen, hchain, hlink⟩ :=
    shortcutLoop_spec valid (p0 :: rest) hvalid ((p0 :: rest).length - 2) 2 ([p0], 0)
      rfl (le_refl _) h2 rfl (by simp) (by simp) (by simp) (by intro j hj; simp at hj)
      (by simpa using hv01)
  rw [← hloop] at hne hhead hlen hchain hlink
  refine ⟨_, hform, ?_, ?_, ?_, ?_, ?_⟩
  · simp
  · rw [List.getD_append _ _ _ _ (List.length_pos.mpr hne)]
    exact hhead
  · have h1 : ((shortcutLoop valid (p0 :: rest) 1 ([p0], 0)).1 ++
        [(p0 :: rest).getD ((p0 :: rest).length - 1) default]).length - 1 =
        (shortcutLoop valid (p0 :: rest) 1 ([p0], 0)).1.length := by
      simp [List.length_append]
    rw [h1, List.getD_append_right _ _ _ _ (le_refl _), Nat.sub_self]
    simp
  · simp only [List.length_append, List.length_singleton]
    omega
  · exact chainOk_concat valid _ _ hchain hne hlink

/-- Counterexample to claim C5 as stated: on the non-empty single-point path
`[(0)]` (whose consecutive pairs all pass `is_edge_valid` vacuously, here with a
checker that accepts every edge) `fast_shortcutting` returns a two-point sequence,
so its length exceeds the input's length. -/
theorem fast_shortcutting_singleton_counterexample :
    (fastShortcutting alwaysValid [qZero1]).map List.length = some 2 ∧
    ¬((2 : ℕ) ≤ ([qZero1] : List (Pt ℚ 1)).length) := by
  constructor
  · have h1 : shortcutLoop alwaysValid [qZero1] 1 ([qZero1], 0) = ([qZero1], 0) := by
      rw [shortcutLoop, dif_neg (by simp)]
    have hform : fastShortcutting alwaysValid [qZero1] =
        some ((shortcutLoop alwaysValid [qZero1] 1 ([qZero1], 0)).1 ++
          [([qZero1] : List (Pt ℚ 1)).getD (([qZero1] : List (Pt ℚ 1)).length - 1) default]) :=
      rfl
    rw [hform, h1]
    rfl
  · simp

/-- The point (1) on the rational line, a concrete input. -/
def qOne1 : Pt ℚ 1 := fun _ => 1

/-- The point (2) on the rational line, a concrete input. -/
def qTwo1 : Pt ℚ 1 := fun _ => 2

/-- Witness for the amended claim C5 at the concrete three-point path
`[(0), (1), (2)]` with the all-accepting checker. -/
theorem fast_shortcutting_valid_paths_witness :
    2 ≤ ([qZero1, qOne1, qTwo1] : List (Pt ℚ 1)).length ∧
    ∃ out, fastShortcutting alwaysValid [qZero1, qOne1, qTwo1] = some out ∧
      out ≠ [] ∧
      out.getD 0 default = ([qZero1, qOne1, qTwo1] : List (Pt ℚ 1)).getD 0 default ∧
      out.getD (out.length - 1) default =
        ([qZero1, qOne1, qTwo1] : List (Pt ℚ 1)).getD
          (([qZero1, qOne1, qTwo1] : List (Pt ℚ 1)).length - 1) default ∧
      out.length ≤ ([qZero1, qOne1, qTwo1] : List (Pt ℚ 1)).length ∧
      chainOk alwaysValid out :=
  ⟨by simp, fast_shortcutting_valid_paths alwaysValid [qZero1, qOne1, qTwo1]
    (by simp) (fun j hj => rfl)⟩

/-! ## Linear nearest-neighbor index (src/neighbors.rs) -/

/-- One comparison step of Rust's `Iterator::min_by` as used in
`LinearNearestNeighbors::nearest_one`: the accumulator is replaced only when it
compares strictly greater (`Ordering::Greater`), so on ties the earlier element
is kept. -/
def nnStep {n : ℕ} (q : Pt ℚ n) (acc y : Pt ℚ n × ℕ) : Pt ℚ n × ℕ :=
  if euclideanDistanceSquared acc.1 q > euclideanDistanceSquared y.1 q then y else acc

/-- `LinearNearestNeighbors::nearest_one` (src/neighbors.rs lines 72-79): a linear
scan by `min_by` over the stored `(point, item)` pairs, comparing squared
distances to the query, returning the stored item. -/
def linearNearestOne {n : ℕ} (pts : List (Pt ℚ n × ℕ)) (q : Pt ℚ n) : Option ℕ :=
  match pts with
  | [] => none
  | x :: xs => some ((xs.foldl (nnStep q) x).2)

lemma foldl_nnStep_spec {n : ℕ} (q : Pt ℚ n) :
    ∀ (xs : List (Pt ℚ n × ℕ)) (x : Pt ℚ n × ℕ),
      ∃ j, j < (x :: xs).length ∧
        xs.foldl (nnStep q) x = (x :: xs).getD j default ∧
        (∀ m, m < (x :: xs).length →
          euclideanDistanceSquared (xs.foldl (nnStep q) x).1 q ≤
            euclideanDistanceSquared ((x :: xs).getD m default).1 q) ∧
        (∀ m, m < j →
          euclideanDistanceSquared (xs.foldl (nnStep q) x).1 q <
            euclideanDistanceSquared ((x :: xs).getD m default).1 q) := by
  intro xs
  induction xs with
  | nil =>
    intro x
    refine ⟨0, by simp, rfl, ?_, by omega⟩
    intro m hm
    simp only [List.length_singleton] at hm
    have hm0 : m = 0 := by omega
    subst hm0
    simp
  | cons y ys ih =>
    intro x
    have hfold : (y :: ys).foldl (nnStep q) x = ys.foldl (nnStep q) (nnStep q x y) := rfl
    obtain ⟨j', hj', heq, hmin, hstrict⟩ := ih (nnStep q x y)
    by_cases hxy : euclideanDistanceSquared x.1 q > euclideanDistanceSquared y.1 q
    · have hacc : nnStep q x y = y := by
        unfold nnStep
        rw [if_pos hxy]
      rw [hacc] at heq hmin hstrict
      refine ⟨j' + 1, ?_, ?_, ?_, ?_⟩
      · simp only [List.length_cons] at hj' ⊢
        omega
      · rw [hfold, hacc, List.getD_cons_succ]
        exact heq
      · intro m hm
        rw [hfold, hacc]
        match m with
        | 0 =>
          have h0 := hmin 0 (by simp)
          simp only [List.getD_cons_zero] at h0 ⊢
          exact le_trans h0 (le_of_lt hxy)
        | m' + 1 =>
          rw [List.getD_cons_succ]
          exact hmin m' (by simp only [List.length_cons] at hm ⊢; omega)
      · intro m hm
        rw [hfold, hacc]
        match m with
        | 0 =>
          have h0 := hmin 0 (by simp)
          simp only [List.getD_cons_zero] at h0 ⊢
          exact lt_of_le_of_lt h0 hxy
        | m' + 1 =>
          rw [List.getD_cons_succ]
          exact hstrict m' (by omega)
    · have hacc : nnStep q x y = x := by
        unfold nnStep
        rw [if_neg hxy]
      have hxley : euclideanDistanceSquared x.1 q ≤ euclideanDistanceSquared y.1 q :=
        not_lt.mp hxy
      rw [hacc] at heq hmin hstrict
      match j', hj', heq, hmin, hstrict with
      | 0, hj', heq, hmin, hstrict =>
        refine ⟨0, by simp, ?_, ?_, by omega⟩
        · rw [hfold, hacc, List.getD_cons_zero]
          simpa using heq
        · intro m hm
          rw [hfold, hacc]
          match m with
          | 0 =>
            simpa using hmin 0 (by simp)
          | 1 =>
            have h0 := hmin 0 (by simp)
            simp only [List.getD_cons_zero] at h0
            rw [List.getD_cons_succ, List.getD_cons_zero]
            exact le_trans h0 hxley
          | m' + 2 =>
            rw [List.getD_cons_succ, List.getD_cons_succ]
            have := hmin (m' + 1) (by simp only [List.length_cons] at hm ⊢; omega)
            rw [List.getD_cons_succ] at this
            exact this
      | j'' + 1, hj', heq, hmin, hstrict =>
        refine ⟨j'' + 2, ?_, ?_, ?_, ?_⟩
        · simp only [List.length_cons] at hj' ⊢
          omega
        · rw [hfold, hacc, List.getD_cons_succ, List.getD_cons_succ]
          rw [List.getD_cons_succ] at heq
          exact heq
        · intro m hm
          rw [hfold, hacc]
          match m with
          | 0 =>
            simpa using hmin 0 (by simp)
          | 1 =>
            have h0 := hmin 0 (by simp)
            simp only [List.getD_cons_zero] at h0
            rw [List.getD_cons_succ, List.getD_cons_zero]
            exact le_trans h0 hxley
          | m' + 2 =>
            rw [List.getD_cons_succ, List.getD_cons_succ]
            have := hmin (m' + 1) (by simp only [List.length_cons] at hm ⊢; omega)
            rw [List.getD_cons_succ] at this
            exact this
        · intro m hm
          rw [hfold, hacc]
          match m with
          | 0 =>
            have h0 := hstrict 0 (by omega)
            simp only [List.getD_cons_zero] at h0 ⊢
            exact h0
          | 1 =>
            have h0 := hstrict 0 (by omega)
            simp only [List.getD_cons_zero] at h0
            rw [List.getD_cons_succ, List.getD_cons_zero]
            exact lt_of_lt_of_le h0 hxley
          | m' + 2 =>
            rw [List.getD_cons_succ, List.getD_cons_succ]
            have := hstrict (m' + 1) (by omega)
            rw [List.getD_cons_succ] at this
            exact this

/-- Claim C6: on a non-empty index, `nearest_one(query)` returns the item of a
stored point with exactly minimal squared distance to the query, and among tied
points it returns the one first encountered in insertion order (every earlier
stored point is at strictly greater squared distance). -/
theorem linear_nearest_one_first_min {n : ℕ} (pts : List (Pt ℚ n × ℕ)) (q : Pt ℚ n)
    (hne : pts ≠ []) :
    ∃ j, j < pts.length ∧
      linearNearestOne pts q = some ((pts.getD j default).2) ∧
      (∀ m, m < pts.length →
        euclideanDistanceSquared ((pts.getD j default).1) q ≤
          euclideanDistanceSquared ((pts.getD m default).1) q) ∧
      (∀ m, m < j →
        euclideanDistanceSquared ((pts.getD j default).1) q <
          euclideanDistanceSquared ((pts.getD m default).1) q) := by
  match pts, hne with
  | x :: xs, _ =>
    obtain ⟨j, hj, heq, hmin, hstrict⟩ := foldl_nnStep_spec q xs x
    refine ⟨j, hj, ?_, ?_, ?_⟩
    · show some ((xs.foldl (nnStep q) x).2) = _
      rw [heq]
    · intro m hm
      have := hmin m hm
      rw [heq] at this
      exact this
    · intro m hm
      have := hstrict m hm
      rw [heq] at this
      exact this

/-- Witness for claim C6 at a concrete two-entry index whose points are tied in
distance to the query: the scan reports the earlier item, 5. -/
theorem linear_nearest_one_first_min_witness :
    ([((qZero1 : Pt ℚ 1), 5), (qZero1, 9)] : List (Pt ℚ 1 × ℕ)) ≠ [] ∧
    (∃ j, j < ([((qZero1 : Pt ℚ 1), 5), (qZero1, 9)] : List (Pt ℚ 1 × ℕ)).length ∧
      linearNearestOne [((qZero1 : Pt ℚ 1), 5), (qZero1, 9)] qZero1 =
        some ((([((qZero1 : Pt ℚ 1), 5), (qZero1, 9)] : List (Pt ℚ 1 × ℕ)).getD j default).2) ∧
      (∀ m, m < ([((qZero1 : Pt ℚ 1), 5), (qZero1, 9)] : List (Pt ℚ 1 × ℕ)).length →
        euclideanDistanceSquared
            ((([((qZero1 : Pt ℚ 1), 5), (qZero1, 9)] : List (Pt ℚ 1 × ℕ)).getD j default).1) qZero1 ≤
          euclideanDistanceSquared
            ((([((qZero1 : Pt ℚ 1), 5), (qZero1, 9)] : List (Pt ℚ 1 × ℕ)).getD m default).1) qZero1) ∧
      (∀ m, m < j →
        euclideanDistanceSquared
            ((([((qZero1 : Pt ℚ 1), 5), (qZero1, 9)] : List (Pt ℚ 1 × ℕ)).getD j default).1) qZero1 <
          euclideanDistanceSquared
            ((([((qZero1 : Pt ℚ 1), 5), (qZero1, 9)] : List (Pt ℚ 1 × ℕ)).getD m default).1) qZero1)) ∧
    linearNearestOne [((qZero1 : Pt ℚ 1), 5), (qZero1, 9)] qZero1 = some 5 :=
  ⟨by simp, linear_nearest_one_first_min _ _ (by simp),
    by simp [linearNearestOne, nnStep, euclideanDistanceSquared, normSquared, dot, ptSub, qZero1]⟩

/-! ## RRT engine (src/rrt.rs) -/

/-- A node in the RRT tree (src/rrt.rs, `Node<F, N>`): a point plus the index of
the parent node (`none` for the root). -/
structure RRTNode (n : ℕ) where
  point : Pt ℚ n
  parent : Option ℕ

instance {n : ℕ} : Inhabited (RRTNode n) := ⟨⟨default, none⟩⟩

/-- The mutable fields of the `RRT` planner struct (src/rrt.rs): goal, tolerance,
node arena, solution marker, the linear nearest-neighbor store, and the cursor of
the sample stream (modelling the sampler's mutable RNG state). -/
structure RRTState (n : ℕ) where
  goal : Pt ℚ n
  goalTolerance : ℚ
  nodes : List (RRTNode n)
  solution : Option ℕ
  nn : List (Pt ℚ n × ℕ)
  sampleIdx : ℕ

/-- The strategy objects fixed at construction of the `RRT` planner: the validity
checker's two methods, the steering function, and the sampling distribution
(modelled as a deterministic stream of points indexed by `sampleIdx`). -/
structure RRTConfig (n : ℕ) where
  isPointValid : Pt ℚ n → Bool
  isEdgeValid : Pt ℚ n → Pt ℚ n → Bool
  steerF : Pt ℚ n → Pt ℚ n → Pt ℚ n
  samples : ℕ → Pt ℚ n

namespace RRT

/-- `RRT::add_node` (src/rrt.rs lines 220-225): register the node's point with the
nearest-neighbor store under the next index, push the node, return the index. -/
def addNode {n : ℕ} (s : RRTState n) (node : RRTNode n) : RRTState n × ℕ :=
  let index := s.nodes.length
  ({ s with nn := s.nn ++ [(node.point, index)], nodes := s.nodes ++ [node] }, index)

/-- `RRT::new` (src/rrt.rs lines 82-103): empty tree and store, no solution, then
`add_node` of the root `Node::new(start, None)`. -/
def new {n : ℕ} (start goal : Pt ℚ n) (goalTolerance : ℚ) : RRTState n :=
  (addNode
    { goal := goal, goalTolerance := goalTolerance, nodes := [], solution := none,
      nn := [], sampleIdx := 0 }
    { point := start, parent := none }).1

/-- `RRT::solved` (src/rrt.rs line 138). -/
def solved {n : ℕ} (s : RRTState n) : Bool := s.solution.isSome

/-- `RRT::iteration` (src/rrt.rs lines 188-217).  `none` models a panic: either
the `.unwrap()` on `nearest_one` or the `self.nodes[i]` indexing failing. -/
def iteration {n : ℕ} (cfg : RRTConfig n) (s : RRTState n) : Option (RRTState n) :=
  let sample := cfg.samples s.sampleIdx
  let s1 : RRTState n := { s with sampleIdx := s.sampleIdx + 1 }
  match linearNearestOne s1.nn sample with
  | none => none
  | some nearestIdx =>
    match s1.nodes.get? nearestIdx with
    | none => none
    | some nearestNode =>
      let newPoint := cfg.steerF nearestNode.point sample
      if !(cfg.isPointValid newPoint) || !(cfg.isEdgeValid nearestNode.point newPoint) then
        some s1
      else
        let r := addNode s1 { point := newPoint, parent := some nearestIdx }
        if euclideanDistanceSquared newPoint r.1.goal ≤
            r.1.goalTolerance * r.1.goalTolerance then
          some { r.1 with solution := some r.2 }
        else
          some r.1

/-- `RRT::solve` (src/rrt.rs lines 111-119): up to `maxIterations` calls of
`iteration`, returning true as soon as `solved` holds. -/
def solve {n : ℕ} (cfg : RRTConfig n) : ℕ → RRTState n → Option (RRTState n × Bool)
  | 0, s => some (s, false)
  | k + 1, s =>
    match iteration cfg s with
    | none => none
    | some s' => if solved s' then some (s', true) else solve cfg k s'

/-- `RRT::run_iterations` (src/rrt.rs lines 127-135): the loop body is identical
to `solve`, stopping early once solved. -/
def runIterations {n : ℕ} (cfg : RRTConfig n) : ℕ → RRTState n → Option (RRTState n × Bool)
  | 0, s => some (s, false)
  | k + 1, s =>
    match iteration cfg s with
    | none => none
    | some s' => if solved s' then some (s', true) else runIterations cfg k s'

/-- The backtracking loop of `RRT::get_path` (src/rrt.rs lines 148-156): follow
parent pointers, collecting points.  `fuel` bounds the walk; since every parent
index is strictly smaller than its child's index, `fuel =` the starting index
suffices and the zero-fuel fallback is never taken on reachable states. -/
def backtrack {n : ℕ} (nodes : List (RRTNode n)) : ℕ → ℕ → List (Pt ℚ n)
  | 0, i => [(nodes.getD i default).point]
  | fuel + 1, i =>
    match (nodes.getD i default).parent with
    | none => [(nodes.getD i default).point]
    | some p => (nodes.getD i default).point :: backtrack nodes fuel p

/-- `RRT::get_path` (src/rrt.rs lines 143-161): `none` when no solution is
recorded; otherwise walk parent links from the solution node to the root and
reverse, so the path runs start → goal. -/
def getPath {n : ℕ} (s : RRTState n) : Option (List (Pt ℚ n)) :=
  match s.solution with
  | none => none
  | some idx => some ((backtrack s.nodes idx idx).reverse)

/-- All engine states reachable from `RRT::new` by any sequence of `iteration`,
`solve`, and `run_iterations` calls (the three mutating entry points). -/
inductive Reachable {n : ℕ} (cfg : RRTConfig n) (start goal : Pt ℚ n) (tol : ℚ) :
    RRTState n → Prop
  | base : Reachable cfg start goal tol (new start goal tol)
  | iter {s s' : RRTState n} : Reachable cfg start goal tol s →
      iteration cfg s = some s' → Reachable cfg start goal tol s'
  | solveCall {s s' : RRTState n} {k : ℕ} {b : Bool} : Reachable cfg start goal tol s →
      solve cfg k s = some (s', b) → Reachable cfg start goal tol s'
  | runCall {s s' : RRTState n} {k : ℕ} {b : Bool} : Reachable cfg start goal tol s →
      runIterations cfg k s = some (s', b) → Reachable cfg start goal tol s'

/-- The engine's structural invariant: fixed goal data, the root with the start
point and no parent at index 0, strictly decreasing parent indices, a
nearest-neighbor store mirroring the node arena, and a solution marker that
points at an in-range node within goal tolerance. -/
def EngineInv {n : ℕ} (start goal : Pt ℚ n) (tol : ℚ) (s : RRTState n) : Prop :=
  s.goal = goal ∧
  s.goalTolerance = tol ∧
  s.nodes.get? 0 = some { point := start, parent := none } ∧
  (∀ i nd, s.nodes.get? i = some nd → 0 < i → ∃ p, nd.parent = some p ∧ p < i) ∧
  s.nn.length = s.nodes.length ∧
  (∀ e ∈ s.nn, ∃ nd, s.nodes.get? e.2 = some nd ∧ nd.point = e.1) ∧
  (∀ j, s.solution = some j → ∃ nd, s.nodes.get? j = some nd ∧
    euclideanDistanceSquared nd.point goal ≤ tol * tol)

lemma engineInv_new {n : ℕ} (start goal : Pt ℚ n) (tol : ℚ) :
    EngineInv start goal tol (new start goal tol) := by
  refine ⟨rfl, rfl, rfl, ?_, rfl, ?_, ?_⟩
  · intro i nd hget hi
    match i, hget, hi with
    | 0, _, hi => omega
    | i + 1, hget, _ => simp [new, addNode] at hget
  · intro e he
    simp only [new, addNode, List.nil_append, List.mem_singleton] at he
    subst he
    exact ⟨{ point := start, parent := none }, rfl, rfl⟩
  · intro j hj
    simp [new, addNode] at hj

end RRT

lemma foldl_nnStep_mem {n : ℕ} (q : Pt ℚ n) :
    ∀ (xs : List (Pt ℚ n × ℕ)) (x : Pt ℚ n × ℕ), xs.foldl (nnStep q) x ∈ x :: xs := by
  intro xs
  induction xs with
  | nil =>
    intro x
    simp
  | cons y ys ih =>
    intro x
    have hfold : (y :: ys).foldl (nnStep q) x = ys.foldl (nnStep q) (nnStep q x y) := rfl
    rw [hfold]
    have h2 := ih (nnStep q x y)
    by_cases hxy : euclideanDistanceSquared x.1 q > euclideanDistanceSquared y.1 q
    · have hacc : nnStep q x y = y := by
        unfold nnStep
        rw [if_pos hxy]
      rw [hacc] at h2 ⊢
      rcases List.mem_cons.mp h2 with h | h
      · simp [List.mem_cons, h]
      · simp [List.mem_cons, h]
    · have hacc : nnStep q x y = x := by
        unfold nnStep
        rw [if_neg hxy]
      rw [hacc] at h2 ⊢
      rcases List.mem_cons.mp h2 with h | h
      · simp [List.mem_cons, h]
      · simp [List.mem_cons, h]

lemma linearNearestOne_mem {n : ℕ} (pts : List (Pt ℚ n × ℕ)) (q : Pt ℚ n) (it : ℕ)
    (h : linearNearestOne pts q = some it) : ∃ p, (p, it) ∈ pts := by
  match pts, h with
  | x :: xs, h =>
    have hmem := foldl_nnStep_mem q xs x
    have hform : linearNearestOne (x :: xs) q = some ((xs.foldl (nnStep q) x).2) := rfl
    rw [hform] at h
    have hit : (xs.foldl (nnStep q) x).2 = it := by
      injection h
    exact ⟨(xs.foldl (nnStep q) x).1, by rw [← hit]; simpa using hmem⟩

namespace RRT

lemma iteration_shape {n : ℕ} {cfg : RRTConfig n} {s s' : RRTState n}
    (hit : iteration cfg s = some s') :
    ∃ idx node,
      linearNearestOne s.nn (cfg.samples s.sampleIdx) = some idx ∧
      s.nodes.get? idx = some node ∧
      (s' = { s with sampleIdx := s.sampleIdx + 1 } ∨
        ∃ newPt, newPt = cfg.steerF node.point (cfg.samples s.sampleIdx) ∧
          ((euclideanDistanceSquared newPt s.goal ≤ s.goalTolerance * s.goalTolerance ∧
            s' = { s with sampleIdx := s.sampleIdx + 1,
                          nn := s.nn ++ [(newPt, s.nodes.length)],
                          nodes := s.nodes ++ [{ point := newPt, parent := some idx }],
                          solution := some s.nodes.length }) ∨
           (¬(euclideanDistanceSquared newPt s.goal ≤ s.goalTolerance * s.goalTolerance) ∧
            s' = { s with sampleIdx := s.sampleIdx + 1,
                          nn := s.nn ++ [(newPt, s.nodes.length)],
                          nodes := s.nodes ++ [{ point := newPt, parent := some idx }] }))) := by
  unfold iteration at hit
  dsimp only at hit
  split at hit
  · exact absurd hit (by simp)
  · rename_i nearestIdx hnn
    split at hit
    · exact absurd hit (by simp)
    · rename_i nearestNode hget
      refine ⟨nearestIdx, nearestNode, hnn, hget, ?_⟩
      split at hit
      · left
        injection hit with hit
        exact hit.symm
      · right
        refine ⟨cfg.steerF nearestNode.point (cfg.samples s.sampleIdx), rfl, ?_⟩
        split at hit
        · rename_i hdist
          left
          refine ⟨hdist, ?_⟩
          injection hit with hit
          exact hit.symm
        · rename_i hdist
          right
          refine ⟨hdist, ?_⟩
          injection hit with hit
          exact hit.symm

lemma engineInv_iteration {n : ℕ} {cfg : RRTConfig n} {start goal : Pt ℚ n} {tol : ℚ}
    {s s' : RRTState n} (hinv : EngineInv start goal tol s)
    (hit : iteration cfg s = some s') : EngineInv start goal tol s' := by
  obtain ⟨hgoal, htol, hroot, hpar, hlen, hnnmem, hsol⟩ := hinv
  obtain ⟨idx, node, hnn, hget, hshape⟩ := iteration_shape hit
  have hidx : idx < s.nodes.length := (List.get?_eq_some.mp hget).1
  have hlenpos : 0 < s.nodes.length := (List.get?_eq_some.mp hroot).1
  rcases hshape with hs' | ⟨newPt, hNewPt, hbranch⟩
  · subst hs'
    exact ⟨hgoal, htol, hroot, hpar, hlen, hnnmem, hsol⟩
  · have hcommon :
        ∀ (sol : Option ℕ),
          (∀ j, sol = some j → ∃ nd,
            (s.nodes ++ [({ point := newPt, parent := some idx } : RRTNode n)]).get? j = some nd ∧
            euclideanDistanceSquared nd.point goal ≤ tol * tol) →
          EngineInv start goal tol
            { s with sampleIdx := s.sampleIdx + 1,
                     nn := s.nn ++ [(newPt, s.nodes.length)],
                     nodes := s.nodes ++ [{ point := newPt, parent := some idx }],
                     solution := sol } := by
      intro sol hsolOk
      refine ⟨hgoal, htol, ?_, ?_, ?_, ?_, hsolOk⟩
      · rw [List.get?_append hlenpos]
        exact hroot
      · intro i nd hgi hi
        have hibound : i < s.nodes.length + 1 := by
          have := (List.get?_eq_some.mp hgi).1
          simpa [List.length_append] using this
        rcases Nat.lt_or_ge i s.nodes.length with hlt | hge
        · rw [List.get?_append hlt] at hgi
          exact hpar i nd hgi hi
        · have hieq : i = s.nodes.length := by omega
          subst hieq
          rw [List.get?_concat_length] at hgi
          injection hgi with hgi
          subst hgi
          exact ⟨idx, rfl, hidx⟩
      · simp [List.length_append, hlen]
      · intro e he
        rcases List.mem_append.mp he with h | h
        · obtain ⟨nd, hnd, hpt⟩ := hnnmem e h
          have hbound : e.2 < s.nodes.length := (List.get?_eq_some.mp hnd).1
          exact ⟨nd, by rw [List.get?_append hbound]; exact hnd, hpt⟩
        · have he' : e = (newPt, s.nodes.length) := by simpa using h
          subst he'
          exact ⟨{ point := newPt, parent := some idx }, by rw [List.get?_concat_length], rfl⟩
    rcases hbranch with ⟨hdist, hs'⟩ | ⟨hdist, hs'⟩
    · subst hs'
      apply hcommon
      intro j hj
      have hjeq : j = s.nodes.length := by
        injection hj with hj
        exact hj.symm
      subst hjeq
      refine ⟨{ point := newPt, parent := some idx }, by rw [List.get?_concat_length], ?_⟩
      rw [hgoal, htol] at hdist
      exact hdist
    · subst hs'
      apply hcommon
      intro j hj
      obtain ⟨nd, hnd, hd⟩ := hsol j hj
      have hbound : j < s.nodes.length := (List.get?_eq_some.mp hnd).1
      exact ⟨nd, by rw [List.get?_append hbound]; exact hnd, hd⟩

lemma engineInv_solve {n : ℕ} {cfg : RRTConfig n} {start goal : Pt ℚ n} {tol : ℚ} :
    ∀ {k : ℕ} {s s' : RRTState n} {b : Bool}, EngineInv start goal tol s →
      solve cfg k s = some (s', b) → EngineInv start goal tol s' := by
  intro k
  induction k with
  | zero =>
    intro s s' b hinv hs
    unfold solve at hs
    injection hs with hs
    rw [show s = s' from congrArg Prod.fst hs]  at hinv
    exact hinv
  | succ k ih =>
    intro s s' b hinv hs
    unfold solve at hs
    split at hs
    · exact absurd hs (by simp)
    · rename_i s1 hit
      have hinv1 := engineInv_iteration hinv hit
      split at hs
      · injection hs with hs
        rw [show s1 = s' from congrArg Prod.fst hs] at hinv1
        exact hinv1
      · exact ih hinv1 hs

lemma engineInv_runIterations {n : ℕ} {cfg : RRTConfig n} {start goal : Pt ℚ n} {tol : ℚ} :
    ∀ {k : ℕ} {s s' : RRTState n} {b : Bool}, EngineInv start goal tol s →
      runIterations cfg k s = some (s', b) → EngineInv start goal tol s' := by
  intro k
  induction k with
  | zero =>
    intro s s' b hinv hs
    unfold runIterations at hs
    injection hs with hs
    rw [show s = s' from congrArg Prod.fst hs] at hinv
    exact hinv
  | succ k ih =>
    intro s s' b hinv hs
    unfold runIterations at hs
    split at hs
    · exact absurd hs (by simp)
    · rename_i s1 hit
      have hinv1 := engineInv_iteration hinv hit
      split at hs
      · injection hs with hs
        rw [show s1 = s' from congrArg Prod.fst hs] at hinv1
        exact hinv1
      · exact ih hinv1 hs

lemma reachable_engineInv {n : ℕ} {cfg : RRTConfig n} {start goal : Pt ℚ n} {tol : ℚ}
    {s : RRTState n} (h : Reachable cfg start goal tol s) : EngineInv start goal tol s := by
  induction h with
  | base => exact engineInv_new start goal tol
  | iter _ hit ih => exact engineInv_iteration ih hit
  | solveCall _ hs ih => exact engineInv_solve ih hs
  | runCall _ hs ih => exact engineInv_runIterations ih hs

end RRT

lemma linearNearestOne_isSome {n : ℕ} (pts : List (Pt ℚ n × ℕ)) (q : Pt ℚ n)
    (hne : pts ≠ []) : (linearNearestOne pts q).isSome = true := by
  match pts, hne with
  | x :: xs, _ => rfl

/-- Claim C3: in every engine state reachable from construction by any sequence of
`iteration`/`solve`/`run_iterations` calls, the node at index 0 holds the start
point and has no parent, and every other node's parent index is strictly less
than its own index, so the node sequence forms a single-rooted acyclic tree. -/
theorem rrt_tree_single_rooted {n : ℕ} (cfg : RRTConfig n) (start goal : Pt ℚ n)
    (tol : ℚ) (s : RRTState n) (h : RRT.Reachable cfg start goal tol s) :
    s.nodes.get? 0 = some { point := start, parent := none } ∧
    ∀ i nd, s.nodes.get? i = some nd → 0 < i → ∃ p, nd.parent = some p ∧ p < i := by
  obtain ⟨_, _, hroot, hpar, _, _, _⟩ := RRT.reachable_engineInv h
  exact ⟨hroot, hpar⟩

/-- An engine configuration over the rational line whose strategies are concrete
total functions: everything is valid (an obstacle set with no spheres), steering
jumps straight to the sample, and the sampler always proposes the origin. -/
def cfgEx : RRTConfig 1 :=
  { isPointValid := fun _ => true
    isEdgeValid := fun _ _ => true
    steerF := fun _ t => t
    samples := fun _ _ => 0 }

/-- Witness for claim C3 at the concrete freshly constructed engine. -/
theorem rrt_tree_single_rooted_witness :
    (RRT.new qZero1 qZero1 100).nodes.get? 0 =
      some { point := qZero1, parent := none } ∧
    ∀ i nd, (RRT.new qZero1 qZero1 100).nodes.get? i = some nd → 0 < i →
      ∃ p, nd.parent = some p ∧ p < i :=
  rrt_tree_single_rooted cfgEx qZero1 qZero1 100 _ RRT.Reachable.base

/-- Claim C9: in every reachable engine state the nearest-neighbor store is
non-empty (the root is registered by `RRT::new` and entries are never removed),
so `nearest_one(&sample).unwrap()` inside `iteration` cannot panic: `nearest_one`
always returns a value, and `iteration` itself always returns normally. -/
theorem rrt_nearest_one_never_panics {n : ℕ} (cfg : RRTConfig n) (start goal : Pt ℚ n)
    (tol : ℚ) (s : RRTState n) (h : RRT.Reachable cfg start goal tol s) :
    s.nn ≠ [] ∧ (∀ q, (linearNearestOne s.nn q).isSome = true) ∧
    (RRT.iteration cfg s).isSome = true := by
  obtain ⟨hgoal, htol, hroot, hpar, hlen, hnnmem, hsol⟩ := RRT.reachable_engineInv h
  have hlenpos : 0 < s.nodes.length := (List.get?_eq_some.mp hroot).1
  have hnnne : s.nn ≠ [] := by
    rw [← List.length_pos, hlen]
    exact hlenpos
  refine ⟨hnnne, fun q => linearNearestOne_isSome s.nn q hnnne, ?_⟩
  obtain ⟨idx, hidx⟩ := Option.isSome_iff_exists.mp
    (linearNearestOne_isSome s.nn (cfg.samples s.sampleIdx) hnnne)
  obtain ⟨p, hmem⟩ := linearNearestOne_mem s.nn (cfg.samples s.sampleIdx) idx hidx
  obtain ⟨nd, hnd, _⟩ := hnnmem (p, idx) hmem
  have hnd' : s.nodes.get? idx = some nd := hnd
  unfold RRT.iteration
  dsimp only
  rw [hidx]
  dsimp only
  rw [hnd']
  dsimp only
  split
  · rfl
  · split
    · rfl
    · rfl

/-- Witness for claim C9 at the concrete freshly constructed engine. -/
theorem rrt_nearest_one_never_panics_witness :
    (RRT.new qZero1 qZero1 100).nn ≠ [] ∧
    (∀ q, (linearNearestOne (RRT.new qZero1 qZero1 100).nn q).isSome = true) ∧
    (RRT.iteration cfgEx (RRT.new qZero1 qZero1 100)).isSome = true :=
  rrt_nearest_one_never_panics cfgEx qZero1 qZero1 100 _ RRT.Reachable.base

lemma backtrack_ne_nil {n : ℕ} (nodes : List (RRTNode n)) (fuel i : ℕ) :
    RRT.backtrack nodes fuel i ≠ [] := by
  cases fuel with
  | zero => simp [RRT.backtrack]
  | succ f =>
    unfold RRT.backtrack
    cases h : (nodes.getD i default).parent <;> simp [h]

lemma backtrack_head {n : ℕ} (nodes : List (RRTNode n)) (fuel i : ℕ) :
    (RRT.backtrack nodes fuel i).head? = some ((nodes.getD i default).point) := by
  cases fuel with
  | zero => rfl
  | succ f =>
    unfold RRT.backtrack
    cases h : (nodes.getD i default).parent <;> simp [h]

lemma backtrack_last {n : ℕ} {nodes : List (RRTNode n)} {start : Pt ℚ n}
    (hroot : nodes.get? 0 = some { point := start, parent := none })
    (hpar : ∀ i nd, nodes.get? i = some nd → 0 < i → ∃ p, nd.parent = some p ∧ p < i) :
    ∀ fuel i, i < nodes.length → i ≤ fuel →
      (RRT.backtrack nodes fuel i).getLast? = some start := by
  have hgetD0 : nodes.getD 0 default = { point := start, parent := none } := by
    rw [List.getD_eq_getD_get?, hroot]
    rfl
  intro fuel
  induction fuel with
  | zero =>
    intro i hilen hif
    have hi0 : i = 0 := by omega
    subst hi0
    rw [show RRT.backtrack nodes 0 0 = [(nodes.getD 0 default).point] from rfl, hgetD0]
    rfl
  | succ f ih =>
    intro i hilen hif
    by_cases hi0 : i = 0
    · subst hi0
      unfold RRT.backtrack
      rw [hgetD0]
      simp
    · have hpos : 0 < i := Nat.pos_of_ne_zero hi0
      have hget : nodes.get? i = some (nodes.getD i default) := by
        rw [List.getD_eq_getD_get?]
        cases hx : nodes.get? i with
        | none =>
          have := List.get?_eq_none.mp hx
          omega
        | some a => rfl
      obtain ⟨p, hp, hplt⟩ := hpar i _ hget hpos
      unfold RRT.backtrack
      rw [hp]
      dsimp only
      have hne := backtrack_ne_nil nodes f p
      obtain ⟨y, ys, hys⟩ := List.exists_cons_of_ne_nil hne
      rw [hys, List.getLast?_cons_cons, ← hys]
      exact ih p (by omega) (by omega)

/-- Claim C4: `get_path` returns none exactly when no solution is recorded; once a
solution is recorded it returns a sequence whose first element is the start point
given at construction and whose last element is the solution node's point, which
lies within goal tolerance (squared comparison, as in the code) of the goal. -/
theorem rrt_get_path_spec {n : ℕ} (cfg : RRTConfig n) (start goal : Pt ℚ n)
    (tol : ℚ) (s : RRTState n) (h : RRT.Reachable cfg start goal tol s) :
    (RRT.getPath s = none ↔ s.solution = none) ∧
    (∀ path, RRT.getPath s = some path →
      path.head? = some start ∧
      ∃ j nd, s.solution = some j ∧ s.nodes.get? j = some nd ∧
        path.getLast? = some nd.point ∧
        euclideanDistanceSquared nd.point goal ≤ tol * tol) := by
  obtain ⟨hgoal, htol, hroot, hpar, hlen, hnnmem, hsol⟩ := RRT.reachable_engineInv h
  constructor
  · unfold RRT.getPath
    cases hs : s.solution <;> simp
  · intro path hpath
    unfold RRT.getPath at hpath
    cases hs : s.solution with
    | none =>
      rw [hs] at hpath
      exact absurd hpath (by simp)
    | some idx =>
      rw [hs] at hpath
      injection hpath with hpath
      obtain ⟨nd, hnd, hdist⟩ := hsol idx hs
      have hidxlen : idx < s.nodes.length := (List.get?_eq_some.mp hnd).1
      have hgetD : s.nodes.getD idx default = nd := by
        rw [List.getD_eq_getD_get?, hnd]
        rfl
      constructor
      · rw [← hpath, List.head?_reverse]
        exact backtrack_last hroot hpar idx idx hidxlen (le_refl idx)
      · refine ⟨idx, nd, rfl, hnd, ?_, hdist⟩
        rw [← hpath, List.getLast?_reverse, backtrack_head, hgetD]

/-- Amended claim C1: the solution marker is never cleared, and an `iteration`
call either leaves it unchanged or points it at the newly appended node; but the
code does not guard the assignment with "no solution is yet recorded", so a later
within-tolerance node CAN displace an already recorded marker (there is no
set-at-most-once guarantee; `solve`/`run_iterations` run one more `iteration`
before checking `solved`, as the counterexample shows). -/
theorem rrt_solution_never_cleared {n : ℕ} (cfg : RRTConfig n) :
    (∀ s s' : RRTState n, RRT.iteration cfg s = some s' →
      s'.solution = s.solution ∨ s'.solution = some s.nodes.length) ∧
    (∀ s s' : RRTState n, RRT.iteration cfg s = some s' →
      s.solution.isSome = true → s'.solution.isSome = true) ∧
    (∀ (k : ℕ) (s s' : RRTState n) (b : Bool), RRT.solve cfg k s = some (s', b) →
      s.solution.isSome = true → s'.solution.isSome = true) ∧
    (∀ (k : ℕ) (s s' : RRTState n) (b : Bool), RRT.runIterations cfg k s = some (s', b) →
      s.solution.isSome = true → s'.solution.isSome = true) := by
  have hA : ∀ s s' : RRTState n, RRT.iteration cfg s = some s' →
      s'.solution = s.solution ∨ s'.solution = some s.nodes.length := by
    intro s s' hit
    obtain ⟨idx, node, _, _, hshape⟩ := RRT.iteration_shape hit
    rcases hshape with hs' | ⟨newPt, _, ⟨_, hs'⟩ | ⟨_, hs'⟩⟩
    · left
      rw [hs']
    · right
      rw [hs']
    · left
      rw [hs']
  have hB : ∀ s s' : RRTState n, RRT.iteration cfg s = some s' →
      s.solution.isSome = true → s'.solution.isSome = true := by
    intro s s' hit hwas
    rcases hA s s' hit with h | h
    · rw [h]
      exact hwas
    · rw [h]
      rfl
  have hC : ∀ (k : ℕ) (s s' : RRTState n) (b : Bool), RRT.solve cfg k s = some (s', b) →
      s.solution.isSome = true → s'.solution.isSome = true := by
    intro k
    induction k with
    | zero =>
      intro s s' b hs hw
      unfold RRT.solve at hs
      injection hs with hs
      rw [← show s = s' from congrArg Prod.fst hs]
      exact hw
    | succ k ih =>
      intro s s' b hs hw
      unfold RRT.solve at hs
      split at hs
      · exact absurd hs (by simp)
      · rename_i s1 hit
        have h1 := hB s s1 hit hw
        split at hs
        · injection hs with hs
          rw [← show s1 = s' from congrArg Prod.fst hs]
          exact h1
        · exact ih s1 s' b hs h1
  have hD : ∀ (k : ℕ) (s s' : RRTState n) (b : Bool),
      RRT.runIterations cfg k s = some (s', b) →
      s.solution.isSome = true → s'.solution.isSome = true := by
    intro k
    induction k with
    | zero =>
      intro s s' b hs hw
      unfold RRT.runIterations at hs
      injection hs with hs
      rw [← show s = s' from congrArg Prod.fst hs]
      exact hw
    | succ k ih =>
      intro s s' b hs hw
      unfold RRT.runIterations at hs
      split at hs
      · exact absurd hs (by simp)
      · rename_i s1 hit
        have h1 := hB s s1 hit hw
        split at hs
        · injection hs with hs
          rw [← show s1 = s' from congrArg Prod.fst hs]
          exact h1
        · exact ih s1 s' b hs h1
  exact ⟨hA, hB, hC, hD⟩

/-- The engine state after one `solve(1)` call on `RRT::new((0), (0), 100)` under
`cfgEx`: two nodes, solution marker at node 1. -/
def rrtSolved1 : RRTState 1 :=
  { goal := qZero1, goalTolerance := 100,
    nodes := [{ point := qZero1, parent := none }, { point := qZero1, parent := some 0 }],
    solution := some 1,
    nn := [(qZero1, 0), (qZero1, 1)],
    sampleIdx := 1 }

/-- The engine state after a second `solve(1)` call: three nodes, and the
solution marker has been displaced to node 2. -/
def rrtSolved2 : RRTState 1 :=
  { goal := qZero1, goalTolerance := 100,
    nodes := [{ point := qZero1, parent := none }, { point := qZero1, parent := some 0 },
      { point := qZero1, parent := some 0 }],
    solution := some 2,
    nn := [(qZero1, 0), (qZero1, 1), (qZero1, 2)],
    sampleIdx := 2 }

/-- Counterexample to claim C1 as stated: on the engine constructed with start =
goal = (0) and tolerance 100, the first `solve(1)` records solution node 1, and a
second `solve(1)` call (which runs one more `iteration` before checking
`solved`) overwrites the marker with the later node 2 — the marker is displaced
by a later node that also lands within tolerance. -/
theorem rrt_solution_displaced_counterexample :
    RRT.solve cfgEx 1 (RRT.new qZero1 qZero1 100) = some (rrtSolved1, true) ∧
    RRT.solve cfgEx 1 rrtSolved1 = some (rrtSolved2, true) ∧
    rrtSolved1.solution = some 1 ∧
    rrtSolved2.solution = some 2 ∧
    (some 1 : Option ℕ) ≠ some 2 := by
  refine ⟨?_, ?_, rfl, rfl, by simp⟩
  · simp [RRT.solve, RRT.solved, RRT.iteration, RRT.new, RRT.addNode, cfgEx,
      linearNearestOne, nnStep, euclideanDistanceSquared, normSquared, dot, ptSub,
      qZero1, rrtSolved1]
    rfl
  · simp [RRT.solve, RRT.solved, RRT.iteration, RRT.addNode, cfgEx,
      linearNearestOne, nnStep, euclideanDistanceSquared, normSquared, dot, ptSub,
      qZero1, rrtSolved1, rrtSolved2]
    rfl

/-- Witness for the amended claim C1: applying the never-cleared property at the
concrete already solved state `rrtSolved1`. -/
theorem rrt_solution_never_cleared_witness :
    RRT.solve cfgEx 1 rrtSolved1 = some (rrtSolved2, true) ∧
    rrtSolved1.solution.isSome = true ∧
    rrtSolved2.solution.isSome = true := by
  have hsolve : RRT.solve cfgEx 1 rrtSolved1 = some (rrtSolved2, true) := by
    simp [RRT.solve, RRT.solved, RRT.iteration, RRT.addNode, cfgEx,
      linearNearestOne, nnStep, euclideanDistanceSquared, normSquared, dot, ptSub,
      qZero1, rrtSolved1, rrtSolved2]
    rfl
  exact ⟨hsolve, rfl,
    (rrt_solution_never_cleared cfgEx).2.2.1 1 rrtSolved1 rrtSolved2 true hsolve rfl⟩

/-! ## IEEE-754 behaviour model (for the claims where NaN propagation matters) -/

/-- A model of the IEEE-754 scalars that the Rust code's `F: Float` parameter
ranges over, sufficient for the operations the library performs: finite values
are exact rationals, plus NaN and the two infinities.  `0.0 / 0.0` is NaN, NaN
propagates through arithmetic, and every comparison involving NaN is false. -/
inductive RF where
  | num : ℚ → RF
  | nan : RF
  | pinf : RF
  | ninf : RF
deriving DecidableEq

namespace RF

/-- IEEE addition. -/
def add : RF → RF → RF
  | nan, _ => nan
  | _, nan => nan
  | pinf, ninf => nan
  | ninf, pinf => nan
  | pinf, _ => pinf
  | _, pinf => pinf
  | ninf, _ => ninf
  | _, ninf => ninf
  | num a, num b => num (a + b)

/-- IEEE subtraction. -/
def sub : RF → RF → RF
  | nan, _ => nan
  | _, nan => nan
  | pinf, pinf => nan
  | ninf, ninf => nan
  | pinf, _ => pinf
  | ninf, _ => ninf
  | _, pinf => ninf
  | _, ninf => pinf
  | num a, num b => num (a - b)

/-- IEEE multiplication (zero times an infinity is NaN). -/
def mul : RF → RF → RF
  | nan, _ => nan
  | _, nan => nan
  | pinf, pinf => pinf
  | pinf, ninf => ninf
  | ninf, pinf => ninf
  | ninf, ninf => pinf
  | pinf, num b => if b = 0 then nan else if 0 < b then pinf else ninf
  | num a, pinf => if a = 0 then nan else if 0 < a then pinf else ninf
  | ninf, num b => if b = 0 then nan else if 0 < b then ninf else pinf
  | num a, ninf => if a = 0 then nan else if 0 < a then ninf else pinf
  | num a, num b => num (a * b)

/-- IEEE division: `0.0 / 0.0` is NaN, a nonzero finite value divided by zero is
a signed infinity (the sign of zero is not modelled; zero is `+0`). -/
def div : RF → RF → RF
  | nan, _ => nan
  | _, nan => nan
  | pinf, pinf => nan
  | pinf, ninf => nan
  | ninf, pinf => nan
  | ninf, ninf => nan
  | pinf, num b => if 0 ≤ b then pinf else ninf
  | ninf, num b => if 0 ≤ b then ninf else pinf
  | num _, pinf => num 0
  | num _, ninf => num 0
  | num a, num b =>
    if b = 0 then (if a = 0 then nan else if 0 < a then pinf else ninf)
    else num (a / b)

/-- IEEE `<`: false whenever either side is NaN. -/
def ltb : RF → RF → Bool
  | nan, _ => false
  | _, nan => false
  | num a, num b => decide (a < b)
  | ninf, num _ => true
  | ninf, pinf => true
  | num _, pinf => true
  | _, _ => false

/-- IEEE `<=`: false whenever either side is NaN. -/
def leb : RF → RF → Bool
  | nan, _ => false
  | _, nan => false
  | num a, num b => decide (a ≤ b)
  | ninf, _ => true
  | _, pinf => true
  | _, _ => false

end RF

/-- Points over the float model (src/point.rs, `Point<F, N>` with IEEE scalars). -/
abbrev PtF (n : ℕ) := Fin n → RF

/-- Componentwise subtraction over the float model (point.rs, `impl Sub`). -/
def ptSubF {n : ℕ} (a b : PtF n) : PtF n := fun i => RF.sub (a i) (b i)

/-- Componentwise addition over the float model (point.rs, `impl Add`). -/
def ptAddF {n : ℕ} (a b : PtF n) : PtF n := fun i => RF.add (a i) (b i)

/-- Scalar multiplication over the float model (point.rs, `impl Mul<F>`). -/
def ptMulF {n : ℕ} (a : PtF n) (s : RF) : PtF n := fun i => RF.mul (a i) s

/-- The accumulation loop of `Point::dot` over the float model:
`sum = sum + a[i] * b[i]` starting from zero, left to right. -/
def dotF {n : ℕ} (a b : PtF n) : RF :=
  (List.finRange n).foldl (fun acc i => RF.add acc (RF.mul (a i) (b i))) (RF.num 0)

/-- `Point::norm_squared` over the float model. -/
def normSquaredF {n : ℕ} (a : PtF n) : RF := dotF a a

/-- `euclidean_distance_squared` over the float model. -/
def euclideanDistanceSquaredF {n : ℕ} (a b : PtF n) : RF := normSquaredF (ptSubF a b)

/-- A spherical obstacle (src/collision.rs, `Sphere<F, N>`). -/
structure SphereF (n : ℕ) where
  center : PtF n
  radius : RF

/-- `EuclideanSphericalObstacleSet::is_point_valid` (src/collision.rs lines
48-55) over the float model: a point is invalid as soon as its squared distance
to some sphere's center is at most the squared radius. -/
def isPointValidF {n : ℕ} (spheres : List (SphereF n)) (p : PtF n) : Bool :=
  spheres.all fun s =>
    !(RF.leb (euclideanDistanceSquaredF p s.center) (RF.mul s.radius s.radius))

/-- `EuclideanSphericalObstacleSet::is_edge_valid` (src/collision.rs lines
57-83) over the float model: per sphere, project the center onto the segment via
`t = dot(ab, ap) / |ab|²`; if `t < 0 || t > 1` check the endpoints, otherwise
check the projected point. -/
def isEdgeValidF {n : ℕ} (spheres : List (SphereF n)) (a b : PtF n) : Bool :=
  spheres.all fun s =>
    let ab := ptSubF b a
    let ap := ptSubF s.center a
    let t := RF.div (dotF ab ap) (normSquaredF ab)
    let radiusSquared := RF.mul s.radius s.radius
    if RF.ltb t (RF.num 0) || RF.ltb (RF.num 1) t then
      !(RF.leb (euclideanDistanceSquaredF a s.center) radiusSquared ||
        RF.leb (euclideanDistanceSquaredF b s.center) radiusSquared)
    else
      !(RF.leb (euclideanDistanceSquaredF (ptAddF a (ptMulF ab t)) s.center) radiusSquared)

/-- The unit sphere centered at the origin of the float-model plane
(the spec's Concrete scenario A obstacle). -/
def sphereUnit2 : SphereF 2 := { center := fun _ => RF.num 0, radius := RF.num 1 }

/-- The origin of the float-model plane. -/
def originF2 : PtF 2 := fun _ => RF.num 0

/-- Claim C2 evaluated at the failing input (code bug): for the unit sphere at
the origin, the zero-length edge at the origin is reported VALID although the
origin itself is in collision.  The projection parameter is `0.0 / 0.0 = NaN`,
both `t < 0` and `t > 1` are false on NaN, the projected point has NaN
coordinates, and its distance comparison is false too, so no sphere ever
triggers invalidity — the fallback to point validity required by the spec does
not happen. -/
theorem is_edge_valid_degenerate_bug :
    isEdgeValidF [sphereUnit2] originF2 originF2 = true ∧
    isPointValidF [sphereUnit2] originF2 = false ∧
    ¬(isEdgeValidF [sphereUnit2] originF2 originF2 = true ↔
      isPointValidF [sphereUnit2] originF2 = true) := by
  have hedge : isEdgeValidF [sphereUnit2] originF2 originF2 = true := by
    simp [isEdgeValidF, sphereUnit2, originF2, euclideanDistanceSquaredF, normSquaredF,
      dotF, ptSubF, ptAddF, ptMulF, RF.add, RF.sub, RF.mul, RF.div, RF.ltb, RF.leb,
      List.finRange, List.range, List.range.loop]
  have hpoint : isPointValidF [sphereUnit2] originF2 = false := by
    simp [isPointValidF, sphereUnit2, originF2, euclideanDistanceSquaredF, normSquaredF,
      dotF, ptSubF, RF.sub, RF.mul, RF.add, RF.leb,
      List.finRange, List.range, List.range.loop]
  refine ⟨hedge, hpoint, ?_⟩
  rw [hedge, hpoint]
  simp

/-- `Point::from_vec` (src/point.rs lines 30-39) over the float model: it fails
(`Err("Invalid number of coords")`, modelled as `none`) exactly when the number
of coordinates differs from `N`; the coordinate values themselves are never
inspected.  (`Point::new` takes a fixed-size array and is infallible by its
type; it performs no checks at all.) -/
def pointFromVecF (n : ℕ) (coords : List RF) : Option (PtF n) :=
  if coords.length ≠ n then none
  else some (fun i => coords.getD i (RF.num 0))

/-- Counterexample to claim C8: constructing a 2-dimensional point from the
coordinate vector `[NaN, NaN]` succeeds — construction does not fail on
non-finite coordinates, so nothing is rejected at the construction boundary. -/
theorem point_from_vec_nan_accepted :
    (pointFromVecF 2 [RF.nan, RF.nan]).isSome = true := by
  simp [pointFromVecF]

/-- Amended claim C8: point construction performs no finiteness validation.
`Point::new` always succeeds by construction, and `Point::from_vec` succeeds
exactly when the coordinate count equals the dimension, regardless of the
coordinate values — NaN or infinite coordinates are accepted (the spec's §4.1
places the burden on callers instead: "No NaN/Inf guarding is performed"). -/
theorem point_from_vec_length_only (n : ℕ) (coords : List RF) :
    (pointFromVecF n coords).isSome = true ↔ coords.length = n := by
  rcases eq_or_ne coords.length n with h | h
  · simp [pointFromVecF, h]
  · simp [pointFromVecF, h]

/-- Witness for claim C4 at the concrete reachable solved state `rrtSolved1`
(reached by one `solve(1)` call from construction): `get_path` is some, starts at
the start point and ends at the solution node's point within tolerance. -/
theorem rrt_get_path_spec_witness :
    (RRT.getPath rrtSolved1 = none ↔ rrtSolved1.solution = none) ∧
    (∀ path, RRT.getPath rrtSolved1 = some path →
      path.head? = some qZero1 ∧
      ∃ j nd, rrtSolved1.solution = some j ∧ rrtSolved1.nodes.get? j = some nd ∧
        path.getLast? = some nd.point ∧
        euclideanDistanceSquared nd.point qZero1 ≤ 100 * 100) := by
  have hsolve : RRT.solve cfgEx 1 (RRT.new qZero1 qZero1 100) = some (rrtSolved1, true) := by
    simp [RRT.solve, RRT.solved, RRT.iteration, RRT.new, RRT.addNode, cfgEx,
      linearNearestOne, nnStep, euclideanDistanceSquared, normSquared, dot, ptSub,
      qZero1, rrtSolved1]
    rfl
  exact rrt_get_path_spec cfgEx qZero1 qZero1 100 rrtSolved1
    (RRT.Reachable.solveCall RRT.Reachable.base hsolve)
